import Mathlib

/-!
Verification of the CHMI radar data pipeline (chmi-radar-data).

Shallow embedding of:
  * conversions.py        - hdf_to_png (threshold-bin dBZ classifier, rain score,
                            RGBA pixel buffer), merge1h_to_png (level-bin classifier
                            via matplotlib BoundaryNorm, rasterized overlay buffer)
  * radar_data_fetching.py - convert_* wrappers (score-bearing final names),
                            download_file, the acquisition loop over one product,
                            the mounted retry policy
  * backend/endpoints.py  - extract_timestamp_and_score, list_files

Machine floats are modelled with exact rationals, numpy arrays with lists,
per-pixel array operations pointwise.  Filenames are modelled as lists of
characters; Python's str.split is modelled by an explicit splitter.
-/

namespace Chmi

/-! ## Classifier: threshold-bin variant (conversions.py, hdf_to_png) -/

/-- CHMI legend thresholds in dBZ (15) - lower bounds of bins
(conversions.py lines 12-15). -/
def CHMI_DBZ_THRESHOLDS : List ℚ :=
  [4, 8, 12, 16, 20, 24, 28, 32, 36, 40, 44, 48, 52, 56, 60]

/-- numpy.searchsorted with side right on an ascending array: the insertion
index, which for a sorted array is the number of entries at most v. -/
def searchsortedRight (ts : List ℚ) (v : ℚ) : ℕ :=
  ts.countP (fun t => decide (t ≤ v))

/-- Calibration attributes read from dataset1/data1/what by hdf_to_png
(conversions.py lines 33-37); all four are required there. -/
structure FrameAttrs where
  gain : ℚ
  offset : ℚ
  nodata : ℕ
  undetect : ℕ
deriving DecidableEq

/-- Decoded physical value raw * gain + offset (conversions.py line 41). -/
def dbzOf (a : FrameAttrs) (raw : ℕ) : ℚ :=
  (raw : ℚ) * a.gain + a.offset

/-- invalid = (raw == nodata) | (raw == undetect) (conversions.py line 39). -/
def invalidPix (a : FrameAttrs) (raw : ℕ) : Bool :=
  raw == a.nodata || raw == a.undetect

/-- Visibility mask (conversions.py lines 43-48): with no raw floor configured,
show everything at least 4 dBZ; with a floor, suppress weak echoes in raw space. -/
def visiblePix (a : FrameAttrs) (rawVisibleMin : Option ℕ) (raw : ℕ) : Bool :=
  match rawVisibleMin with
  | none => !invalidPix a raw && decide ((4 : ℚ) ≤ dbzOf a raw)
  | some m => !invalidPix a raw && decide (m ≤ raw)

/-- Per-pixel class (conversions.py lines 49-53):
cls = searchsorted(CHMI_DBZ_THRESHOLDS, dbz, side right) - 1, then
cls of every non-visible pixel is overwritten with -1. -/
def hdfClassPix (a : FrameAttrs) (rawVisibleMin : Option ℕ) (raw : ℕ) : ℤ :=
  if visiblePix a rawVisibleMin raw then
    (searchsortedRight CHMI_DBZ_THRESHOLDS (dbzOf a raw) : ℤ) - 1
  else -1

/-- Classified grid of a decoded frame, flattened to a list of pixels. -/
def hdfCls (a : FrameAttrs) (rawVisibleMin : Option ℕ) (raws : List ℕ) : List ℤ :=
  raws.map (hdfClassPix a rawVisibleMin)

/-- Rain score (conversions.py lines 54-57 and 91-94): fraction of pixels
whose class is at least 0, an exact ratio, not rounded. -/
def rain_score (cls : List ℤ) : ℚ :=
  ((cls.countP (fun c => decide (0 ≤ c))) : ℚ) / (cls.length : ℚ)

/-- hdf_to_png as a function of the decoded frame: the classified grid it
draws and the rain score it returns (conversions.py lines 49-65). -/
def hdf_to_png (a : FrameAttrs) (rawVisibleMin : Option ℕ) (raws : List ℕ) :
    List ℤ × ℚ :=
  (hdfCls a rawVisibleMin raws, rain_score (hdfCls a rawVisibleMin raws))

end Chmi

namespace Chmi

/-- Attributes used by the CHMI MaxZ composites (gain 0.5, offset -32 in the
published files); convert_maxz_to_png (radar_data_fetching.py line 58) calls
hdf_to_png with raw_visible_min None on such a frame. -/
def maxzAttrs (nodata undetect : ℕ) : FrameAttrs :=
  ⟨1/2, -32, nodata, undetect⟩

end Chmi

namespace Chmi

/-! ## Classifier: level-bin variant (conversions.py, merge1h_to_png) -/

/-- Attributes read with what.get by merge1h_to_png (conversions.py lines
75-78): each may be absent; gain and offset default to 1.0 and 0.0, nodata and
undetect stay absent. -/
structure MergeAttrs where
  gain : Option ℚ
  offset : Option ℚ
  nodata : Option ℚ
  undetect : Option ℚ
deriving DecidableEq

/-- Physical value of a pixel: raw * gain + offset with the defaults of
what.get (conversions.py lines 75-79). -/
def physOf (a : MergeAttrs) (raw : ℕ) : ℚ :=
  (raw : ℚ) * a.gain.getD 1 + a.offset.getD 0

/-- Truncation toward zero, the effect of numpy astype int16 on a float. -/
def ratTrunc (q : ℚ) : ℤ :=
  if 0 ≤ q then Int.floor q else -Int.floor (-q)

/-- matplotlib BoundaryNorm(boundaries, ncolors, clip True) evaluated at v
(conversions.py lines 87-88), modelled from the library's documented
behavior with extend neither: the input is clipped to [vmin, vmax]; the bin is
digitize(x, boundaries) - 1 (digitize on an ascending table counts the
boundaries at most x); when the region count differs from ncolors the index is
rescaled linearly and cast to int16 (truncation); finally every clipped value
at vmax or above is overwritten with ncolors - 1. -/
def boundaryNormClip (levels : List ℚ) (ncolors : ℕ) (v : ℚ) : ℤ :=
  let vmin := levels.getD 0 0
  let vmax := levels.getD (levels.length - 1) 0
  let x := max vmin (min v vmax)
  let iret : ℤ := (searchsortedRight levels x : ℤ) - 1
  let nregions := levels.length - 1
  let scaled : ℤ :=
    if nregions ≠ ncolors then
      if nregions = 1 then (if iret = 0 then ((ncolors : ℤ) - 1) / 2 else iret)
      else ratTrunc ((((ncolors : ℚ) - 1) / ((nregions : ℚ) - 1)) * (iret : ℚ))
    else iret
  if vmax ≤ x then (ncolors : ℤ) - 1 else scaled

/-- Modelled from the spec: config.py is not part of src; it provides
PRECIP_LEVELS, the ordered, strictly increasing boundary table of the Merge1h
precipitation levels, and CHMI_COLORS, the palette.  Only these ordering
properties are specified, so a level table is kept abstract: any nonempty
strictly increasing list of rationals. -/
def IsLevelTable (levels : List ℚ) : Prop :=
  levels ≠ [] ∧ levels.Chain' (· < ·)

/-- Per-pixel class of merge1h_to_png (conversions.py lines 79-89):
normed = BoundaryNorm(PRECIP_LEVELS, len(CHMI_COLORS), clip True)(physical),
then every pixel whose raw code is in mask_values (the present ones among
nodata, undetect) or whose physical value is below the first level is
overwritten with -1. -/
def mergeClassPix (levels : List ℚ) (ncolors : ℕ) (a : MergeAttrs) (raw : ℕ) : ℤ :=
  let maskVals := a.nodata.toList ++ a.undetect.toList
  if maskVals.contains ((raw : ℚ)) || decide (physOf a raw < levels.getD 0 0) then -1
  else boundaryNormClip levels ncolors (physOf a raw)

/-- Classified grid of a Merge1h frame, flattened to a list of pixels. -/
def mergeCls (levels : List ℚ) (ncolors : ℕ) (a : MergeAttrs) (raws : List ℕ) :
    List ℤ :=
  raws.map (mergeClassPix levels ncolors a)

/-- merge1h_to_png as a function of the decoded frame: its classified grid and
the rain score it returns (conversions.py lines 79-109). -/
def merge1h_to_png (levels : List ℚ) (ncolors : ℕ) (a : MergeAttrs)
    (raws : List ℕ) : List ℤ × ℚ :=
  (mergeCls levels ncolors a raws, rain_score (mergeCls levels ncolors a raws))

end Chmi

namespace Chmi

/-! ## Image emitter (conversions.py lines 58-64 and 96-108) -/

/-- An RGB color with 8-bit channels, as parsed from a hex entry of
CHMI_COLORS into PALETTE_RGB (conversions.py lines 17-20). -/
structure RGB where
  r : ℕ
  g : ℕ
  b : ℕ
deriving DecidableEq

/-- Modelled from the spec: CHMI_COLORS lives in config.py, which is not part
of src; the spec fixes only that it is an ordered palette of RGB colors, so
the palette is kept abstract: any list of triples of 8-bit channels. -/
def IsPalette (pal : List RGB) : Prop :=
  ∀ c ∈ pal, c.r < 256 ∧ c.g < 256 ∧ c.b < 256

/-- Direct pixel-buffer write (conversions.py lines 59-63): the RGBA buffer
starts as zeros; where cls is at least 0 the RGB channels become
PALETTE_RGB[cls] and alpha becomes 255. -/
def emitPixelBuffer (pal : List RGB) (c : ℤ) : ℕ × ℕ × ℕ × ℕ :=
  if 0 ≤ c then
    ((pal.getD c.toNat ⟨0, 0, 0⟩).r, (pal.getD c.toNat ⟨0, 0, 0⟩).g,
     (pal.getD c.toNat ⟨0, 0, 0⟩).b, 255)
  else (0, 0, 0, 0)

/-- matplotlib to_rgb of a hex color: each 8-bit channel divided by 255. -/
def toRgbUnit (n : ℕ) : ℚ :=
  (n : ℚ) / 255

/-- Quantization of a float color channel in [0,1] to 8 bits when the
rasterized figure is written as a PNG: rounding to the nearest of 255ths. -/
def quant8 (q : ℚ) : ℕ :=
  (Int.floor (q * 255 + 1/2)).toNat

/-- Rasterized-plot overlay path (conversions.py lines 96-108): the float RGBA
buffer starts as zeros; the loop over the palette sets RGB to
to_rgb(CHMI_COLORS[idx]) and alpha to 1.0 exactly on the pixels whose class
equals idx; the buffer is then drawn 1:1 (interpolation none, figure sized
width/dpi x height/dpi at dpi) and written as an 8-bit PNG, modelled by
quant8 per channel. -/
def emitPixelOverlay (pal : List RGB) (c : ℤ) : ℕ × ℕ × ℕ × ℕ :=
  if 0 ≤ c ∧ c.toNat < pal.length then
    (quant8 (toRgbUnit (pal.getD c.toNat ⟨0, 0, 0⟩).r),
     quant8 (toRgbUnit (pal.getD c.toNat ⟨0, 0, 0⟩).g),
     quant8 (toRgbUnit (pal.getD c.toNat ⟨0, 0, 0⟩).b), quant8 1)
  else (quant8 0, quant8 0, quant8 0, quant8 0)

end Chmi

namespace Chmi

/-! ## Filenames: digits, timestamps, scores
(radar_data_fetching.py 55-89, backend/endpoints.py 10-28) -/

/-- The character of a decimal digit. -/
def digitChar (n : ℕ) : Char :=
  match n with
  | 0 => '0'
  | 1 => '1'
  | 2 => '2'
  | 3 => '3'
  | 4 => '4'
  | 5 => '5'
  | 6 => '6'
  | 7 => '7'
  | 8 => '8'
  | 9 => '9'
  | _ => '?'

/-- The value of a decimal digit character; 10 for anything else. -/
def digitVal (c : Char) : ℕ :=
  match c with
  | '0' => 0
  | '1' => 1
  | '2' => 2
  | '3' => 3
  | '4' => 4
  | '5' => 5
  | '6' => 6
  | '7' => 7
  | '8' => 8
  | '9' => 9
  | _ => 10

/-- str.isdigit restricted to ASCII decimal digits (the only ones the
pipeline produces). -/
def isDig (c : Char) : Bool :=
  decide (digitVal c < 10)

def allDigits (s : List Char) : Bool :=
  s.all isDig

/-- The number denoted by a digit string. -/
def natOfDigits (s : List Char) : ℕ :=
  s.foldl (fun acc c => acc * 10 + digitVal c) 0

/-- Zero-padded decimal rendering, two digits. -/
def pad2 (n : ℕ) : List Char :=
  [digitChar (n / 10), digitChar (n % 10)]

/-- Zero-padded decimal rendering, three digits. -/
def pad3 (n : ℕ) : List Char :=
  [digitChar (n / 100), digitChar (n / 10 % 10), digitChar (n % 10)]

/-- Zero-padded decimal rendering, four digits. -/
def pad4 (n : ℕ) : List Char :=
  [digitChar (n / 1000), digitChar (n / 100 % 10), digitChar (n / 10 % 10),
   digitChar (n % 10)]

/-- A wall-clock timestamp to the second (a Python datetime in UTC). -/
structure TS where
  year : ℕ
  month : ℕ
  day : ℕ
  hour : ℕ
  minute : ℕ
  second : ℕ
deriving DecidableEq

/-- Days in a month with the Gregorian leap rule, as datetime validates. -/
def daysInMonth (y m : ℕ) : ℕ :=
  if m = 2 then
    if (y % 4 = 0 && y % 100 != 0) || y % 400 = 0 then 29 else 28
  else if m = 4 || m = 6 || m = 9 || m = 11 then 30 else 31

/-- The ranges datetime accepts for a YYYYMMDDHHMMSS string. -/
def tsValid (t : TS) : Bool :=
  decide (1 ≤ t.year) && decide (t.year ≤ 9999) &&
  decide (1 ≤ t.month) && decide (t.month ≤ 12) &&
  decide (1 ≤ t.day) && decide (t.day ≤ daysInMonth t.year t.month) &&
  decide (t.hour ≤ 23) && decide (t.minute ≤ 59) && decide (t.second ≤ 59)

/-- The 14-digit YYYYMMDDHHMMSS rendering of a timestamp. -/
def fmtTS (t : TS) : List Char :=
  pad4 t.year ++ pad2 t.month ++ pad2 t.day ++ pad2 t.hour ++ pad2 t.minute ++
    pad2 t.second

/-- datetime.strptime with format YYYYMMDDHHMMSS (endpoints.py lines 16, 25):
14 decimal digits split 4-2-2-2-2-2, validated; none models the ValueError
raised on anything else. -/
def parseTS (s : List Char) : Option TS :=
  if s.length = 14 && allDigits s then
    let t : TS :=
      ⟨natOfDigits (s.take 4), natOfDigits ((s.drop 4).take 2),
       natOfDigits ((s.drop 6).take 2), natOfDigits ((s.drop 8).take 2),
       natOfDigits ((s.drop 10).take 2), natOfDigits ((s.drop 12).take 2)⟩
    if tsValid t then some t else none
  else none

/-- Python str.split on a single separator character: every occurrence splits,
empty pieces are kept. -/
def splitOnChar (sep : Char) : List Char → List (List Char)
  | [] => [[]]
  | c :: rest =>
    if c = sep then [] :: splitOnChar sep rest
    else
      match splitOnChar sep rest with
      | [] => [[c]]
      | s :: ss => (c :: s) :: ss

/-- Rounding a score to the nearest thousandth, numerator only.  Python
formats the score with round-half-even on the binary double; on the exact
rationals of this model rounding is half-up, which agrees except on exact
ties of the double value. -/
def round3Num (q : ℚ) : ℕ :=
  (Int.floor (q * 1000 + 1/2)).toNat

/-- The score rounded to three decimals, as a rational. -/
def round3 (q : ℚ) : ℚ :=
  (round3Num q : ℚ) / 1000

/-- Python format .3f of a score in [0, 1]: one integer digit, a dot, three
fractional digits (radar_data_fetching.py line 59). -/
def fmt3 (q : ℚ) : List Char :=
  digitChar (round3Num q / 1000) :: '.' :: pad3 (round3Num q % 1000)

/-- Python float() restricted to the unsigned decimal forms reaching it here:
a digit string, or digits.digits with at least one side nonempty; none models
the ValueError on anything else. -/
def parseFloat (s : List Char) : Option ℚ :=
  match splitOnChar '.' s with
  | [ip] =>
    if ip ≠ [] && allDigits ip then some ((natOfDigits ip : ℚ)) else none
  | [ip, fp] =>
    if allDigits ip && allDigits fp && (ip ≠ [] || fp ≠ []) then
      some ((natOfDigits ip : ℚ) + (natOfDigits fp : ℚ) / (10 : ℚ) ^ fp.length)
    else none
  | _ => none

def dotPng : List Char :=
  ['.', 'p', 'n', 'g']

/-- The final artifact name of the convert_* wrappers
(radar_data_fetching.py lines 59-61): stem + underscore + score to three
decimals + .png; the score is rounded here and only here. -/
def finalNameOf (stem : List Char) (score : ℚ) : List Char :=
  stem ++ '_' :: (fmt3 score ++ dotPng)

/-- A legacy artifact name: the stem directly, with no score suffix. -/
def legacyNameOf (stem : List Char) : List Char :=
  stem ++ dotPng

/-- extract_timestamp_and_score (backend/endpoints.py lines 10-28): strip the
last four characters, split on underscores; if the second-to-last part is 14
digits it is the timestamp and the last part feeds float() (score None if that
fails); otherwise if the last part is 14 digits it is the timestamp with no
score; anything else raises, modelled by none (an invalid date in a matching
branch also raises and does not fall through). -/
def extract_timestamp_and_score (filename : List Char) : Option (TS × Option ℚ) :=
  let name := filename.take (filename.length - 4)
  let parts := splitOnChar '_' name
  let p2 := parts.getD (parts.length - 2) []
  let p1 := parts.getD (parts.length - 1) []
  if 2 ≤ parts.length && (p2.length = 14 && allDigits p2) then
    match parseTS p2 with
    | some ts => some (ts, parseFloat p1)
    | none => none
  else if p1.length = 14 && allDigits p1 then
    match parseTS p1 with
    | some ts => some (ts, none)
    | none => none
  else none

end Chmi

namespace Chmi

/-! ## Serving layer: list endpoint (backend/endpoints.py lines 37-71) -/

/-- One entry of the list response: timestamp, url, and rain_score exactly
when the filename encodes one. -/
structure Entry where
  ts : TS
  url : List Char
  rain : Option ℚ
deriving DecidableEq

/-- Numeric key of a timestamp.  results.sort orders by the fixed-width ISO
string of the UTC timestamp, and on the validated timestamps produced by
parseTS that lexicographic order coincides with this numeric order. -/
def tsKey (t : TS) : ℕ :=
  ((((t.year * 100 + t.month) * 100 + t.day) * 100 + t.hour) * 100 + t.minute)
      * 100 + t.second

/-- The url field "/datatype/filename" (endpoints.py line 64). -/
def urlOf (datatype fname : List Char) : List Char :=
  '/' :: (datatype ++ '/' :: fname)

/-- directory.glob star.png: the files whose name ends in .png. -/
def isPng (f : List Char) : Bool :=
  f.drop (f.length - 4) == dotPng

/-- The loop body of list_files (endpoints.py lines 54-68) for one file:
parse the name (skip on failure), keep it when start <= ts <= end, attach
rain_score only when present. -/
def entryOf (datatype : List Char) (s e : TS) (f : List Char) : Option Entry :=
  match extract_timestamp_and_score f with
  | none => none
  | some (ts, sc) =>
    if tsKey s ≤ tsKey ts ∧ tsKey ts ≤ tsKey e then
      some ⟨ts, urlOf datatype f, sc⟩
    else none

/-- list_files (endpoints.py lines 37-71).  IMG_DIRS is modelled from the
spec: backend/app_config.py is not part of src, and the spec only says it maps
known product identifiers to artifact directories, so it is an abstract map
from the datatype to the directory contents (none for unknown products,
triggering abort 404).  Query parameters arrive already ISO-parsed (none
models a missing or malformed pair, abort 400).  The error code of a client
error is returned in Except.error. -/
def list_files (dirs : List Char → Option (List (List Char)))
    (datatype : List Char) (startEnd : Option (TS × TS)) :
    Except ℕ (List Entry) :=
  match dirs datatype with
  | none => .error 404
  | some files =>
    match startEnd with
    | none => .error 400
    | some (s, e) =>
      let results := (files.filter isPng).filterMap (entryOf datatype s e)
      .ok (results.insertionSort (fun x y => tsKey x.ts ≤ tsKey y.ts))

end Chmi

namespace Chmi

/-! ## Acquisition loop over one product
(radar_data_fetching.py, download_file lines 134-156 and main lines 168-218) -/

/-- Events observable while the loop processes one tick. -/
inductive Ev where
  | dlCall (name : String)
  | netReq (name : String)
  | addSeen (name : String)
  | convCall (name : String)
deriving DecidableEq

/-- What the network does for one downloaded file: full success with the
payload written, an exception before anything is written, or an exception
mid-stream leaving a truncated file on disk. -/
inductive DlOutcome where
  | ok (content : ℕ)
  | failClean
  | failMid (content : ℕ)
deriving DecidableEq

/-- download_file (radar_data_fetching.py lines 134-156): if the local path
exists, return False at once, no request; otherwise stream the file, True on
success; on an exception log + alert and return False.  disk maps a base name
to the content of the local file when one exists. -/
def download_file (net : String → DlOutcome) (disk : String → Option ℕ)
    (name : String) : Bool × (String → Option ℕ) × List Ev :=
  if (disk name).isSome then (false, disk, [.dlCall name])
  else
    match net name with
    | .ok c => (true, fun n => if n = name then some c else disk n,
        [.dlCall name, .netReq name])
    | .failClean => (false, disk, [.dlCall name, .netReq name])
    | .failMid c => (false, fun n => if n = name then some c else disk n,
        [.dlCall name, .netReq name])

/-- The body of the per-file loop (radar_data_fetching.py lines 185-217) for
one product: skip names already in the seen set; on download success add the
name to the seen set and then attempt the conversion (whose own failure is
caught and only logged). -/
def processLink (net : String → DlOutcome) (seen : List String)
    (disk : String → Option ℕ) (link : String) :
    (List String × (String → Option ℕ)) × List Ev :=
  if link ∈ seen then ((seen, disk), [])
  else
    let r := download_file net disk link
    if r.1 then ((seen ++ [link], r.2.1), r.2.2 ++ [.addSeen link, .convCall link])
    else ((seen, r.2.1), r.2.2)

/-- One tick of the acquisition loop over the discovered links of one
product. -/
def processTick (net : String → DlOutcome) (links : List String)
    (seen : List String) (disk : String → Option ℕ) :
    (List String × (String → Option ℕ)) × List Ev :=
  match links with
  | [] => ((seen, disk), [])
  | l :: ls =>
    let r := processLink net seen disk l
    let rest := processTick net ls r.1.1 r.1.2
    (rest.1, r.2 ++ rest.2)

/-- The seeding of the per-product seen set at process start
(radar_data_fetching.py lines 172-175): exactly the names of the files
already in the product's download directory. -/
def initial_seen (localFiles : List String) : List String :=
  localFiles

end Chmi

namespace Chmi

/-! ## Remote listing client (radar_data_fetching.py lines 38-42, 118-131) -/

/-- Retry configuration mounted on the session (line 39). -/
def status_forcelist : List ℕ :=
  [500, 502, 503, 504]

def retry_total : ℕ :=
  5

def backoff_factor : ℚ :=
  1

/-- Modelled from the spec: the exponential backoff the mounted adapter
performs between retries (the HTTP library implementing it is not part of
src): the sleep before the k-th retry doubles each time, scaled by the
configured backoff factor. -/
def backoffSleep (k : ℕ) : ℚ :=
  backoff_factor * 2 ^ k

/-- Modelled from the spec: the bounded-retry loop of the mounted adapter
(not part of src): attempt the request; while the response status is in
status_forcelist and retries remain, sleep and retry; an in-forcelist status
with no retries left surfaces a retry-exhausted error (none).  Returns the
final status (some) or none, with the number of attempts made; attempt k
receives status (statuses k). -/
def retryRun (statuses : ℕ → ℕ) : ℕ → ℕ → Option ℕ × ℕ
  | 0, attempt =>
    if statuses attempt ∈ status_forcelist then (none, attempt + 1)
    else (some (statuses attempt), attempt + 1)
  | fuel + 1, attempt =>
    if statuses attempt ∈ status_forcelist then retryRun statuses fuel (attempt + 1)
    else (some (statuses attempt), attempt + 1)

/-- Events of the listing call error path. -/
inductive FetchEv where
  | logged
  | notified
deriving DecidableEq

/-- The link extraction of get_file_links (lines 122-126): lines containing
.hdf and a quoted href contribute folder_url + the first quoted field. -/
def extractLinks (folderUrl : List Char) (lines : List (List Char)) :
    List (List Char) :=
  (lines.filter (fun line =>
      decide (['.', 'h', 'd', 'f'] <:+: line) &&
      decide (['h', 'r', 'e', 'f', '=', '"'] <:+: line))).map
    (fun line => folderUrl ++ (splitOnChar '"' line).getD 1 [])

/-- get_file_links (lines 118-131) composed with the mounted retry policy:
a retry-exhausted session.get (none), or a final error status making
raise_for_status raise, lands in the except branch, which logs the error,
notifies the alerting sink and returns an empty list; otherwise the listing
body is scanned for links. -/
def get_file_links (statuses : ℕ → ℕ) (folderUrl : List Char)
    (lines : List (List Char)) : List (List Char) × List FetchEv :=
  match (retryRun statuses retry_total 0).1 with
  | none => ([], [.logged, .notified])
  | some s =>
    if 400 ≤ s then ([], [.logged, .notified])
    else (extractLinks folderUrl lines, [])

end Chmi
namespace Chmi

/-! ## Helper lemmas on the threshold table -/

theorem thresholds_as_range :
    CHMI_DBZ_THRESHOLDS = (List.range 15).map (fun (k : ℕ) => 4 + 4 * (k : ℚ)) := by
  simp [List.range_succ, CHMI_DBZ_THRESHOLDS]
  norm_num

theorem countP_range_lt (n : ℕ) (m : ℤ) :
    (List.range n).countP (fun (k : ℕ) => decide ((k : ℤ) < m))
      = (min (n : ℤ) (max m 0)).toNat := by
  induction n with
  | zero => simp
  | succ n ih =>
    rw [List.range_succ, List.countP_append, ih]
    simp only [List.countP_cons, List.countP_nil, decide_eq_true_eq]
    split_ifs with h <;> omega

/-- searchsorted over the concrete dBZ table, as a function of the floor of
v / 4. -/
theorem searchsorted_thresholds (v : ℚ) :
    searchsortedRight CHMI_DBZ_THRESHOLDS v
      = (min 15 (max (Int.floor (v / 4)) 0)).toNat := by
  rw [searchsortedRight, thresholds_as_range, List.countP_map]
  have hcong :
      (List.range 15).countP ((fun t => decide (t ≤ v)) ∘ fun (k : ℕ) => 4 + 4 * (k : ℚ))
        = (List.range 15).countP (fun (k : ℕ) => decide ((k : ℤ) < Int.floor (v / 4))) := by
    apply List.countP_congr
    intro k _
    simp only [Function.comp_apply, decide_eq_true_eq]
    rw [Int.lt_iff_add_one_le, Int.le_floor]
    push_cast
    rw [le_div_iff₀ (by norm_num : (0:ℚ) < 4)]
    constructor <;> intro h <;> linarith
  rw [hcong, countP_range_lt]
  norm_num

theorem thresholds_getD (i : ℕ) (h : i < 15) :
    CHMI_DBZ_THRESHOLDS.getD i 0 = 4 + 4 * (i : ℚ) := by
  interval_cases i <;> norm_num [CHMI_DBZ_THRESHOLDS]

end Chmi

namespace Chmi

/-- Floor of a natural number divided by a positive natural number, in ℚ,
is natural division. -/
theorem floor_nat_div_q (n k : ℕ) (hk : 0 < k) :
    Int.floor ((n : ℚ) / (k : ℚ)) = ((n / k : ℕ) : ℤ) := by
  have hk0 : (0:ℚ) < (k:ℚ) := by exact_mod_cast hk
  have hdm : ((k:ℚ)) * (((n / k : ℕ)) : ℚ) + (((n % k : ℕ)) : ℚ) = (n:ℚ) := by
    exact_mod_cast Nat.div_add_mod n k
  have hmod : (((n % k : ℕ)) : ℚ) < (k:ℚ) := by
    exact_mod_cast Nat.mod_lt n hk
  have hmod0 : (0:ℚ) ≤ (((n % k : ℕ)) : ℚ) := by positivity
  rw [Int.floor_eq_iff]
  simp only [Int.cast_natCast]
  constructor
  · rw [le_div_iff₀ hk0]
    linarith
  · rw [div_lt_iff₀ hk0]
    linarith

end Chmi

namespace Chmi

/-- A visible pixel whose dBZ value is at or above the i-th threshold and
strictly below every later one is classified into bin i. -/
theorem hdfClassPix_bin (a : FrameAttrs) (rvm : Option ℕ) (raw : ℕ) (i : ℕ)
    (hi : i < 15) (hvis : visiblePix a rvm raw = true)
    (hle : CHMI_DBZ_THRESHOLDS.getD i 0 ≤ dbzOf a raw)
    (hlt : ∀ j : ℕ, j < 15 → i < j → dbzOf a raw < CHMI_DBZ_THRESHOLDS.getD j 0) :
    hdfClassPix a rvm raw = (i : ℤ) := by
  have hdef : hdfClassPix a rvm raw
      = (searchsortedRight CHMI_DBZ_THRESHOLDS (dbzOf a raw) : ℤ) - 1 := by
    simp [hdfClassPix, hvis]
  rw [hdef, searchsorted_thresholds]
  set v := dbzOf a raw with hv
  rw [thresholds_getD i hi] at hle
  have hfl : (i : ℤ) + 1 ≤ Int.floor (v / 4) := by
    rw [Int.le_floor]
    push_cast
    rw [le_div_iff₀ (by norm_num : (0:ℚ) < 4)]
    linarith
  by_cases hi14 : i + 1 < 15
  · have hub := hlt (i + 1) hi14 (Nat.lt_succ_self i)
    rw [thresholds_getD (i + 1) hi14] at hub
    push_cast at hub
    have hfu : Int.floor (v / 4) < (i : ℤ) + 2 := by
      rw [Int.floor_lt]
      push_cast
      rw [div_lt_iff₀ (by norm_num : (0:ℚ) < 4)]
      linarith
    omega
  · omega

/-- C1: in the threshold-bin (pseudo-CAPPI / reflectivity) classifier, every
pixel that fails the validity test gets class -1, and every valid pixel whose
dBZ value lies at or above the i-th entry of the ascending 15-entry threshold
table and strictly below every later entry (so the i-th entry is the last
threshold that is at most the value) gets class i; in particular a value at or
above the last threshold (60 dBZ) gets class 14, and a value exactly on a
threshold falls in the bin starting there. -/
theorem c1_threshold_bin_classifier (a : FrameAttrs) (rvm : Option ℕ) (raw : ℕ) :
    (visiblePix a rvm raw = false → hdfClassPix a rvm raw = -1) ∧
    (∀ i : ℕ, i < 15 →
      visiblePix a rvm raw = true →
      CHMI_DBZ_THRESHOLDS.getD i 0 ≤ dbzOf a raw →
      (∀ j : ℕ, j < 15 → i < j → dbzOf a raw < CHMI_DBZ_THRESHOLDS.getD j 0) →
      hdfClassPix a rvm raw = (i : ℤ)) := by
  constructor
  · intro h
    simp [hdfClassPix, h]
  · intro i hi hvis hle hlt
    exact hdfClassPix_bin a rvm raw i hi hvis hle hlt

/-- Witness for C1 at a concrete frame: with gain 1/2, offset -32,
nodata 255, undetect 0 and no raw floor, raw code 80 decodes to 8 dBZ,
is visible, and is classified into bin 1 (the bin whose lower bound is 8). -/
theorem c1_threshold_bin_classifier_witness :
    visiblePix ⟨1/2, -32, 255, 0⟩ none 80 = true ∧
    hdfClassPix ⟨1/2, -32, 255, 0⟩ none 80 = 1 := by
  have hvis : visiblePix ⟨1/2, -32, 255, 0⟩ none 80 = true := by
    norm_num [visiblePix, invalidPix, dbzOf]
  refine ⟨hvis, ?_⟩
  exact (c1_threshold_bin_classifier ⟨1/2, -32, 255, 0⟩ none 80).2 1 (by norm_num)
    hvis (by norm_num [CHMI_DBZ_THRESHOLDS, dbzOf])
    (by
      intro j hj hij
      interval_cases j <;> norm_num [CHMI_DBZ_THRESHOLDS, dbzOf])

end Chmi

namespace Chmi

/-- C2 counterexample: the claim predicts class (72 - 73) fdiv 8 = -1 for raw
code 72 in the MaxZ path, but the code (hdf_to_png with raw_visible_min None,
via the dBZ threshold table) classifies raw 72 (= 4 dBZ under the MaxZ
calibration gain 1/2, offset -32, with 72 neither nodata nor undetect) into
bin 0, not -1. -/
theorem c2_counterexample_raw72 :
    Int.fdiv ((72 : ℤ) - 73) 8 = -1 ∧
    hdfClassPix (maxzAttrs 255 0) none 72 = 0 := by
  constructor
  · decide
  · have hvis : visiblePix (maxzAttrs 255 0) none 72 = true := by
      norm_num [visiblePix, invalidPix, dbzOf, maxzAttrs]
    exact hdfClassPix_bin (maxzAttrs 255 0) none 72 0 (by norm_num)
      hvis (by norm_num [CHMI_DBZ_THRESHOLDS, dbzOf, maxzAttrs])
      (by
        intro j hj hij
        interval_cases j <;> norm_num [CHMI_DBZ_THRESHOLDS, dbzOf, maxzAttrs])

end Chmi

namespace Chmi

/-- C2 (amended): in the MaxZ conversion path (hdf_to_png with
raw_visible_min None), classification is NOT the raw-code mapping
(raw - 73) fdiv 8; it is the threshold-bin dBZ classifier.  Under the MaxZ
calibration gain 1/2, offset -32, for a pixel whose raw code is neither
nodata nor undetect: a raw code of at least 72 is classified into bin
min ((raw - 72) / 8) 14 (so raw 72 and raw 73 both land in bin 0, and bins
saturate at 14), and a raw code below 72 decodes below 4 dBZ, fails the
visibility test and gets class -1; raw codes equal to nodata or undetect get
class -1. -/
theorem c2_maxz_amended (nodata undetect raw : ℕ)
    (hnd : raw ≠ nodata) (hud : raw ≠ undetect) :
    (72 ≤ raw →
      hdfClassPix (maxzAttrs nodata undetect) none raw
        = ((min ((raw - 72) / 8) 14 : ℕ) : ℤ)) ∧
    (raw < 72 →
      hdfClassPix (maxzAttrs nodata undetect) none raw = -1) ∧
    (∀ r : ℕ, r = nodata ∨ r = undetect →
      hdfClassPix (maxzAttrs nodata undetect) none r = -1) := by
  have hinv : invalidPix (maxzAttrs nodata undetect) raw = false := by
    simp [invalidPix, maxzAttrs, hnd, hud]
  have hdbz : dbzOf (maxzAttrs nodata undetect) raw = (raw : ℚ) * (1/2) + (-32) := by
    simp [dbzOf, maxzAttrs]
  refine ⟨?_, ?_, ?_⟩
  · intro h72
    have h72q : (72 : ℚ) ≤ (raw : ℚ) := by exact_mod_cast h72
    have hvis : visiblePix (maxzAttrs nodata undetect) none raw = true := by
      simp only [visiblePix, hinv, Bool.not_false, Bool.true_and, decide_eq_true_eq, hdbz]
      linarith
    have hfl : Int.floor (dbzOf (maxzAttrs nodata undetect) raw / 4)
        = ((raw / 8 : ℕ) : ℤ) - 8 := by
      have hdiv : dbzOf (maxzAttrs nodata undetect) raw / 4
          = (raw : ℚ) / ((8:ℕ):ℚ) - ((8:ℤ):ℚ) := by
        rw [hdbz]; push_cast; ring
      rw [hdiv, Int.floor_sub_int, floor_nat_div_q raw 8 (by norm_num)]
    simp only [hdfClassPix, hvis, if_true, searchsorted_thresholds, hfl]
    omega
  · intro h72
    have h72q : (raw : ℚ) < 72 := by exact_mod_cast h72
    have hvis : visiblePix (maxzAttrs nodata undetect) none raw = false := by
      simp only [visiblePix, hinv, Bool.not_false, Bool.true_and,
        decide_eq_false_iff_not, hdbz, not_le]
      linarith
    simp [hdfClassPix, hvis]
  · intro r hr
    have hinvr : invalidPix (maxzAttrs nodata undetect) r = true := by
      rcases hr with h | h <;> simp [invalidPix, maxzAttrs, h]
    have hvis : visiblePix (maxzAttrs nodata undetect) none r = false := by
      simp [visiblePix, hinvr]
    simp [hdfClassPix, hvis]

/-- Witness for C2 (amended) at raw code 73 (the claim's RAW_MIN): it lands in
bin 0, and so does raw code 72. -/
theorem c2_maxz_amended_witness :
    hdfClassPix (maxzAttrs 255 0) none 73 = 0 := by
  have h := (c2_maxz_amended 255 0 73 (by norm_num) (by norm_num)).1 (by norm_num)
  simpa using h

end Chmi

namespace Chmi

/-- C3: for every classified grid, the rain score is count of classes at
least 0 over the total pixel count, lies in [0, 1], and is a function of the
classified grid alone: all three conversion variants return exactly
rain_score of the grid they classified, and rounding to three decimals
happens only inside the final-name encoding (fmt3 within finalNameOf), with
the exact unrounded score everywhere before that. -/
theorem c3_rain_score (cls : List ℤ) (h : 0 < cls.length) :
    rain_score cls
        = ((cls.countP (fun c => decide (0 ≤ c))) : ℚ) / (cls.length : ℚ) ∧
    0 ≤ rain_score cls ∧ rain_score cls ≤ 1 ∧
    (∀ a rvm raws,
      (hdf_to_png a rvm raws).2 = rain_score ((hdf_to_png a rvm raws).1)) ∧
    (∀ levels ncolors ma raws,
      (merge1h_to_png levels ncolors ma raws).2
        = rain_score ((merge1h_to_png levels ncolors ma raws).1)) ∧
    (∀ stem : List Char,
      finalNameOf stem (rain_score cls)
        = stem ++ '_' :: (fmt3 (rain_score cls) ++ dotPng)) := by
  have hlen : (0:ℚ) < (cls.length : ℚ) := by exact_mod_cast h
  have hcnt : cls.countP (fun c => decide (0 ≤ c)) ≤ cls.length :=
    List.countP_le_length _
  refine ⟨rfl, ?_, ?_, fun _ _ _ => rfl, fun _ _ _ _ => rfl, fun _ => rfl⟩
  · unfold rain_score
    positivity
  · unfold rain_score
    rw [div_le_one hlen]
    exact_mod_cast hcnt

/-- Witness for C3 on the concrete grid with one rainy and one transparent
pixel: the score is exactly 1/2 and lies in [0, 1]. -/
theorem c3_rain_score_witness :
    rain_score [0, -1] = 1/2 ∧ 0 ≤ rain_score [0, -1] ∧ rain_score [0, -1] ≤ 1 := by
  have h := c3_rain_score [0, -1] (by norm_num)
  refine ⟨?_, h.2.1, h.2.2.1⟩
  rw [h.1]
  norm_num [List.countP_cons]

end Chmi

namespace Chmi

/-! ## Digit and splitter lemmas -/

theorem digitVal_digitChar (n : ℕ) (h : n < 10) : digitVal (digitChar n) = n := by
  interval_cases n <;> rfl

theorem isDig_digitChar (n : ℕ) (h : n < 10) : isDig (digitChar n) = true := by
  interval_cases n <;> rfl

theorem digitChar_ne_underscore (n : ℕ) : digitChar n ≠ '_' := by
  unfold digitChar
  split <;> decide

theorem digitChar_ne_dot (n : ℕ) : digitChar n ≠ '.' := by
  unfold digitChar
  split <;> decide

theorem natOfDigits_pad2 (n : ℕ) (h : n < 100) : natOfDigits (pad2 n) = n := by
  simp only [natOfDigits, pad2, List.foldl_cons, List.foldl_nil]
  rw [digitVal_digitChar _ (by omega), digitVal_digitChar _ (by omega)]
  omega

theorem natOfDigits_pad3 (n : ℕ) (h : n < 1000) : natOfDigits (pad3 n) = n := by
  simp only [natOfDigits, pad3, List.foldl_cons, List.foldl_nil]
  rw [digitVal_digitChar _ (by omega), digitVal_digitChar _ (by omega),
    digitVal_digitChar _ (by omega)]
  omega

theorem natOfDigits_pad4 (n : ℕ) (h : n < 10000) : natOfDigits (pad4 n) = n := by
  simp only [natOfDigits, pad4, List.foldl_cons, List.foldl_nil]
  rw [digitVal_digitChar _ (by omega), digitVal_digitChar _ (by omega),
    digitVal_digitChar _ (by omega), digitVal_digitChar _ (by omega)]
  omega

theorem allDigits_pad2 (n : ℕ) (h : n < 100) : allDigits (pad2 n) = true := by
  simp only [allDigits, pad2, List.all_cons, List.all_nil, Bool.and_true]
  rw [isDig_digitChar _ (by omega), isDig_digitChar _ (by omega)]
  rfl

theorem allDigits_pad3 (n : ℕ) (h : n < 1000) : allDigits (pad3 n) = true := by
  simp only [allDigits, pad3, List.all_cons, List.all_nil, Bool.and_true]
  rw [isDig_digitChar _ (by omega), isDig_digitChar _ (by omega),
    isDig_digitChar _ (by omega)]
  rfl

theorem allDigits_pad4 (n : ℕ) (h : n < 10000) : allDigits (pad4 n) = true := by
  simp only [allDigits, pad4, List.all_cons, List.all_nil, Bool.and_true]
  rw [isDig_digitChar _ (by omega), isDig_digitChar _ (by omega),
    isDig_digitChar _ (by omega), isDig_digitChar _ (by omega)]
  rfl

theorem splitOnChar_ne_nil (sep : Char) (l : List Char) : splitOnChar sep l ≠ [] := by
  induction l with
  | nil => simp [splitOnChar]
  | cons c rest ih =>
    by_cases h : c = sep
    · simp [splitOnChar, h]
    · simp only [splitOnChar, h, if_false]
      cases hs : splitOnChar sep rest with
      | nil => simp
      | cons s ss => simp

theorem splitOnChar_append (sep : Char) (xs ys : List Char) :
    splitOnChar sep (xs ++ sep :: ys)
      = splitOnChar sep xs ++ splitOnChar sep ys := by
  induction xs with
  | nil => simp [splitOnChar]
  | cons c rest ih =>
    by_cases h : c = sep
    · subst h
      simp [splitOnChar, ih]
    · simp only [List.cons_append, splitOnChar, h, if_false, ih]
      cases hs : splitOnChar sep rest with
      | nil => exact absurd hs (splitOnChar_ne_nil sep rest)
      | cons s ss =>
        rw [List.append_eq, ih, hs]
        rfl

theorem splitOnChar_no_sep (sep : Char) (l : List Char) (h : sep ∉ l) :
    splitOnChar sep l = [l] := by
  induction l with
  | nil => rfl
  | cons c rest ih =>
    have hc : ¬ c = sep := by
      intro e
      exact h (by rw [e]; exact List.mem_cons_self _ _)
    have hr : sep ∉ rest := fun hm => h (List.mem_cons_of_mem _ hm)
    simp only [splitOnChar, hc, if_false, ih hr]

end Chmi

namespace Chmi

/-! ## Timestamp and score round-trip lemmas -/

theorem daysInMonth_le (y m : ℕ) : daysInMonth y m ≤ 31 := by
  unfold daysInMonth
  split_ifs <;> norm_num

theorem tsValid_bounds (t : TS) (h : tsValid t = true) :
    1 ≤ t.year ∧ t.year ≤ 9999 ∧ 1 ≤ t.month ∧ t.month ≤ 12 ∧ 1 ≤ t.day ∧
    t.day ≤ 31 ∧ t.hour ≤ 23 ∧ t.minute ≤ 59 ∧ t.second ≤ 59 := by
  have hd := daysInMonth_le t.year t.month
  simp only [tsValid, Bool.and_eq_true, decide_eq_true_eq] at h
  omega

theorem fmtTS_take4 (t : TS) : (fmtTS t).take 4 = pad4 t.year := rfl

theorem fmtTS_drop4_take2 (t : TS) : ((fmtTS t).drop 4).take 2 = pad2 t.month := rfl

theorem fmtTS_drop6_take2 (t : TS) : ((fmtTS t).drop 6).take 2 = pad2 t.day := rfl

theorem fmtTS_drop8_take2 (t : TS) : ((fmtTS t).drop 8).take 2 = pad2 t.hour := rfl

theorem fmtTS_drop10_take2 (t : TS) : ((fmtTS t).drop 10).take 2 = pad2 t.minute := rfl

theorem fmtTS_drop12_take2 (t : TS) : ((fmtTS t).drop 12).take 2 = pad2 t.second := rfl

theorem fmtTS_length (t : TS) : (fmtTS t).length = 14 := rfl

theorem allDigits_fmtTS (t : TS) (h : tsValid t = true) :
    allDigits (fmtTS t) = true := by
  obtain ⟨h1, h2, h3, h4, h5, h6, h7, h8, h9⟩ := tsValid_bounds t h
  simp only [fmtTS, allDigits, List.all_append, Bool.and_eq_true]
  refine ⟨⟨⟨⟨⟨?_, ?_⟩, ?_⟩, ?_⟩, ?_⟩, ?_⟩ <;>
    first
      | exact allDigits_pad4 _ (by omega)
      | exact allDigits_pad2 _ (by omega)

theorem parseTS_fmtTS (t : TS) (h : tsValid t = true) : parseTS (fmtTS t) = some t := by
  obtain ⟨h1, h2, h3, h4, h5, h6, h7, h8, h9⟩ := tsValid_bounds t h
  unfold parseTS
  rw [if_pos]
  · rw [fmtTS_take4, fmtTS_drop4_take2, fmtTS_drop6_take2, fmtTS_drop8_take2,
      fmtTS_drop10_take2, fmtTS_drop12_take2,
      natOfDigits_pad4 _ (by omega), natOfDigits_pad2 _ (by omega),
      natOfDigits_pad2 _ (by omega), natOfDigits_pad2 _ (by omega),
      natOfDigits_pad2 _ (by omega), natOfDigits_pad2 _ (by omega)]
    have heta : (⟨t.year, t.month, t.day, t.hour, t.minute, t.second⟩ : TS) = t := rfl
    rw [heta, if_pos h]
  · simp [fmtTS_length, allDigits_fmtTS t h]

theorem round3Num_le (q : ℚ) (h1 : q ≤ 1) : round3Num q ≤ 1000 := by
  unfold round3Num
  have hlt : Int.floor (q * 1000 + 1/2) < 1001 := by
    rw [Int.floor_lt]
    push_cast
    linarith
  omega

theorem dot_not_mem_pad3 (n : ℕ) : '.' ∉ pad3 n := by
  intro hmem
  simp only [pad3, List.mem_cons, List.not_mem_nil, or_false] at hmem
  rcases hmem with h | h | h <;> exact digitChar_ne_dot _ h.symm

theorem parseFloat_fmt3 (q : ℚ) (h1 : q ≤ 1) :
    parseFloat (fmt3 q) = some (round3 q) := by
  have hle := round3Num_le q h1
  set r := round3Num q with hr
  have hd : r / 1000 < 10 := by omega
  have hm : r % 1000 < 1000 := by omega
  have hsplit : splitOnChar '.' (fmt3 q)
      = [[digitChar (r / 1000)], pad3 (r % 1000)] := by
    have hshape : fmt3 q = [digitChar (r / 1000)] ++ '.' :: pad3 (r % 1000) := rfl
    rw [hshape, splitOnChar_append,
      splitOnChar_no_sep _ _ (by
        intro hmem
        simp only [List.mem_cons, List.not_mem_nil, or_false] at hmem
        exact digitChar_ne_dot _ hmem.symm),
      splitOnChar_no_sep _ _ (dot_not_mem_pad3 _)]
    rfl
  have hstep : parseFloat (fmt3 q)
      = if (allDigits [digitChar (r / 1000)] && allDigits (pad3 (r % 1000)) &&
            (decide ([digitChar (r / 1000)] ≠ []) || decide (pad3 (r % 1000) ≠ []))) = true
        then some ((natOfDigits [digitChar (r / 1000)] : ℚ)
            + (natOfDigits (pad3 (r % 1000)) : ℚ) / (10:ℚ) ^ (pad3 (r % 1000)).length)
        else none := by
    unfold parseFloat
    rw [hsplit]
  rw [hstep, if_pos]
  · have hn1 : natOfDigits [digitChar (r / 1000)] = r / 1000 := by
      simp only [natOfDigits, List.foldl_cons, List.foldl_nil, Nat.zero_mul,
        Nat.zero_add]
      exact digitVal_digitChar _ hd
    have hn2 : natOfDigits (pad3 (r % 1000)) = r % 1000 := natOfDigits_pad3 _ hm
    have hlen3 : (pad3 (r % 1000)).length = 3 := rfl
    rw [hn1, hn2, hlen3]
    have hdm : ((r / 1000 : ℕ) : ℚ) * 1000 + ((r % 1000 : ℕ) : ℚ) = (r : ℚ) := by
      have h : r / 1000 * 1000 + r % 1000 = r := by omega
      exact_mod_cast h
    have hval : ((r / 1000 : ℕ) : ℚ) + ((r % 1000 : ℕ) : ℚ) / (10:ℚ) ^ 3
        = (r : ℚ) / 1000 := by
      field_simp
      linarith
    rw [hval]
    rfl
  · simp only [Bool.and_eq_true, Bool.or_eq_true, decide_eq_true_eq]
    refine ⟨⟨?_, allDigits_pad3 _ hm⟩, Or.inl (by simp)⟩
    simp only [allDigits, List.all_cons, List.all_nil, Bool.and_true]
    exact isDig_digitChar _ hd

end Chmi

namespace Chmi

theorem underscore_not_mem_fmt3 (q : ℚ) : '_' ∉ fmt3 q := by
  intro hmem
  simp only [fmt3, pad3, List.mem_cons, List.not_mem_nil, or_false] at hmem
  rcases hmem with h | h | h | h | h
  · exact digitChar_ne_underscore _ h.symm
  · exact absurd h (by decide)
  · exact digitChar_ne_underscore _ h.symm
  · exact digitChar_ne_underscore _ h.symm
  · exact digitChar_ne_underscore _ h.symm

/-- C5 (amended): for every source stem whose final underscore-separated
segment is the 14-digit rendering of a valid timestamp t, and every score of
at most 1, the generated final name stem_score.png parses back to exactly t
and to the score rounded to three decimals.  The legacy name stem.png parses
back to t with no score PROVIDED the segment before the timestamp token (when
one exists) is not itself a 14-digit digit string - otherwise the reader
takes that earlier segment as the timestamp and the token as a score. -/
theorem c5_filename_roundtrip_amended (stem : List Char) (t : TS) (S : ℚ)
    (hval : tsValid t = true) (hS : S ≤ 1)
    (hstem : (splitOnChar '_' stem).getD ((splitOnChar '_' stem).length - 1) []
      = fmtTS t) :
    extract_timestamp_and_score (finalNameOf stem S) = some (t, some (round3 S)) ∧
    ((2 ≤ (splitOnChar '_' stem).length →
        ¬(((splitOnChar '_' stem).getD ((splitOnChar '_' stem).length - 2) []).length = 14 ∧
          allDigits ((splitOnChar '_' stem).getD ((splitOnChar '_' stem).length - 2) [])
            = true)) →
      extract_timestamp_and_score (legacyNameOf stem) = some (t, none)) := by
  have hxsne : splitOnChar '_' stem ≠ [] := splitOnChar_ne_nil _ _
  have hlxs : 1 ≤ (splitOnChar '_' stem).length := List.length_pos.mpr hxsne
  constructor
  · -- new format
    have hname : finalNameOf stem S = (stem ++ '_' :: fmt3 S) ++ dotPng := by
      simp [finalNameOf]
    have hstrip : (finalNameOf stem S).take ((finalNameOf stem S).length - 4)
        = stem ++ '_' :: fmt3 S := by
      rw [hname]
      have h4 : ((stem ++ '_' :: fmt3 S) ++ dotPng).length - 4
          = (stem ++ '_' :: fmt3 S).length := by
        simp [dotPng]
        omega
      rw [h4, List.take_left]
    have hparts : splitOnChar '_' (stem ++ '_' :: fmt3 S)
        = splitOnChar '_' stem ++ [fmt3 S] := by
      rw [splitOnChar_append, splitOnChar_no_sep _ _ (underscore_not_mem_fmt3 S)]
    have hlen : (splitOnChar '_' stem ++ [fmt3 S]).length
        = (splitOnChar '_' stem).length + 1 := by
      simp
    have hp2 : (splitOnChar '_' stem ++ [fmt3 S]).getD
        ((splitOnChar '_' stem ++ [fmt3 S]).length - 2) [] = fmtTS t := by
      rw [hlen]
      have hidx : (splitOnChar '_' stem).length + 1 - 2
          = (splitOnChar '_' stem).length - 1 := by
        omega
      rw [hidx, List.getD_append _ _ _ _ (by omega)]
      exact hstem
    have hp1 : (splitOnChar '_' stem ++ [fmt3 S]).getD
        ((splitOnChar '_' stem ++ [fmt3 S]).length - 1) [] = fmt3 S := by
      rw [hlen]
      have hidx : (splitOnChar '_' stem).length + 1 - 1
          = (splitOnChar '_' stem).length := by
        omega
      rw [hidx, List.getD_append_right _ _ _ _ (le_refl _)]
      simp
    simp only [extract_timestamp_and_score]
    rw [hstrip, hparts, hp2, hp1]
    rw [if_pos]
    · rw [parseTS_fmtTS t hval, parseFloat_fmt3 S hS]
    · simp only [Bool.and_eq_true, decide_eq_true_eq]
      exact ⟨by rw [hlen]; omega, fmtTS_length t, allDigits_fmtTS t hval⟩
  · -- legacy format
    intro hpre
    have hstrip : (legacyNameOf stem).take ((legacyNameOf stem).length - 4)
        = stem := by
      unfold legacyNameOf
      have h4 : (stem ++ dotPng).length - 4 = stem.length := by
        simp [dotPng]
      rw [h4, List.take_left]
    simp only [extract_timestamp_and_score]
    rw [hstrip]
    rw [if_neg]
    · rw [if_pos]
      · rw [hstem, parseTS_fmtTS t hval]
      · rw [hstem]
        simp only [Bool.and_eq_true, decide_eq_true_eq]
        exact ⟨fmtTS_length t, allDigits_fmtTS t hval⟩
    · intro hc
      simp only [Bool.and_eq_true, decide_eq_true_eq] at hc
      exact hpre hc.1 ⟨hc.2.1, hc.2.2⟩

end Chmi

namespace Chmi

/-- Witness for C5 (amended) on a real CHMI stem: the generated name
T_PABV23_C_OKPR_20240101123000_0.500.png parses back to 2024-01-01 12:30:00
and score 0.500, and the legacy name without the score suffix parses to the
same timestamp with no score. -/
theorem c5_filename_roundtrip_amended_witness :
    extract_timestamp_and_score
        (finalNameOf ("T_PABV23_C_OKPR_20240101123000".toList) (1/2))
      = some (⟨2024, 1, 1, 12, 30, 0⟩, some (round3 (1/2))) ∧
    extract_timestamp_and_score
        (legacyNameOf ("T_PABV23_C_OKPR_20240101123000".toList))
      = some (⟨2024, 1, 1, 12, 30, 0⟩, none) ∧
    round3 (1/2) = 1/2 := by
  have h := c5_filename_roundtrip_amended ("T_PABV23_C_OKPR_20240101123000".toList)
    ⟨2024, 1, 1, 12, 30, 0⟩ (1/2) (by decide) (by norm_num) (by decide)
  refine ⟨h.1, h.2 ?_, ?_⟩
  · intro _ hc
    exact absurd hc.1 (by decide)
  · have hfl : Int.floor ((1/2 : ℚ) * 1000 + 1/2) = 500 := by
      rw [Int.floor_eq_iff]
      norm_num
    unfold round3 round3Num
    rw [hfl]
    show ((500 : ℕ) : ℚ) / 1000 = 1/2
    norm_num

/-- C5 counterexample: a legacy artifact name whose stem ends in the 14-digit
timestamp 20240101123000 but whose preceding segment is itself 14 digits;
the reader returns the earlier segment as the timestamp (12:00:00, not the
12:30:00 the name ends in) together with a spurious score parsed from the
final timestamp token, instead of that timestamp with no score. -/
theorem c5_counterexample_legacy_double_timestamp :
    extract_timestamp_and_score
        (legacyNameOf ("20240101120000_20240101123000".toList))
      = some (⟨2024, 1, 1, 12, 0, 0⟩, some ((20240101123000 : ℕ) : ℚ)) ∧
    (⟨2024, 1, 1, 12, 0, 0⟩ : TS) ≠ ⟨2024, 1, 1, 12, 30, 0⟩ ∧
    (some ((20240101123000 : ℕ) : ℚ) : Option ℚ) ≠ none := by
  refine ⟨rfl, by decide, by simp⟩

end Chmi

namespace Chmi

/-! ## Acquisition-loop lemmas -/

theorem download_file_skips_existing (net : String → DlOutcome)
    (disk : String → Option ℕ) (name : String) (c : ℕ) (h : disk name = some c) :
    download_file net disk name = (false, disk, [Ev.dlCall name]) := by
  simp [download_file, h]

theorem processTick_seen_mem (net : String → DlOutcome) (links : List String)
    (seen : List String) (disk : String → Option ℕ) (n : String) :
    n ∈ (processTick net links seen disk).1.1 ↔
      n ∈ seen ∨ (n ∈ links ∧ n ∉ seen ∧ disk n = none ∧
        ∃ c, net n = DlOutcome.ok c) := by
  induction links generalizing seen disk with
  | nil => simp [processTick]
  | cons l ls ih =>
    by_cases hseen : l ∈ seen
    · have hpl : processLink net seen disk l = ((seen, disk), []) := by
        simp [processLink, hseen]
      simp only [processTick, hpl, ih, List.mem_cons]
      by_cases hn : n = l
      · subst hn
        tauto
      · tauto
    · rcases hdisk : disk l with _ | c
      · rcases hnet : net l with c | _ | c
        · have hpl : processLink net seen disk l
              = ((seen ++ [l], fun m => if m = l then some c else disk m),
                 [Ev.dlCall l, Ev.netReq l, Ev.addSeen l, Ev.convCall l]) := by
            simp [processLink, download_file, hseen, hdisk, hnet]
          simp only [processTick, hpl, ih, List.mem_append, List.mem_cons,
            List.mem_singleton, List.not_mem_nil, or_false]
          by_cases hn : n = l
          · subst hn
            simp only [hdisk, hnet]
            tauto
          · simp only [hn, if_false, or_false]
            tauto
        · have hpl : processLink net seen disk l = ((seen, disk),
              [Ev.dlCall l, Ev.netReq l]) := by
            simp [processLink, download_file, hseen, hdisk, hnet]
          simp only [processTick, hpl, ih, List.mem_cons]
          by_cases hn : n = l
          · subst hn
            simp only [hnet]
            constructor
            · tauto
            · rintro (h | ⟨_, _, _, c, hc⟩)
              · tauto
              · exact absurd hc (by simp)
          · tauto
        · have hpl : processLink net seen disk l
              = ((seen, fun m => if m = l then some c else disk m),
                 [Ev.dlCall l, Ev.netReq l]) := by
            simp [processLink, download_file, hseen, hdisk, hnet]
          simp only [processTick, hpl, ih, List.mem_cons]
          by_cases hn : n = l
          · subst hn
            simp only [if_pos rfl, hnet]
            constructor
            · rintro (h | ⟨_, _, hc, _⟩)
              · tauto
              · exact absurd hc (by simp)
            · rintro (h | ⟨_, _, _, c1, hc⟩)
              · tauto
              · exact absurd hc (by simp)
          · simp only [hn, if_false]
            tauto
      · have hpl : processLink net seen disk l = ((seen, disk), [Ev.dlCall l]) := by
          rw [processLink, if_neg hseen,
            download_file_skips_existing net disk l c hdisk]
          rfl
        simp only [processTick, hpl, ih, List.mem_cons]
        by_cases hn : n = l
        · subst hn
          simp only [hdisk]
          constructor
          · tauto
          · rintro (h | ⟨_, _, hc, _⟩)
            · tauto
            · exact absurd hc (by simp)
        · tauto

end Chmi

namespace Chmi

theorem processTick_no_dlCall_of_seen (net : String → DlOutcome)
    (links : List String) (n : String) :
    ∀ seen disk, n ∈ seen → Ev.dlCall n ∉ (processTick net links seen disk).2 := by
  induction links with
  | nil =>
    intro seen disk hn
    simp [processTick]
  | cons l ls ih =>
    intro seen disk hn
    by_cases hseen : l ∈ seen
    · have hpl : processLink net seen disk l = ((seen, disk), []) := by
        simp [processLink, hseen]
      simp only [processTick, hpl, List.nil_append]
      exact ih _ _ hn
    · have hne : l ≠ n := fun e => hseen (e ▸ hn)
      rcases hdisk : disk l with _ | c
      · rcases hnet : net l with c | _ | c
        · have hpl : processLink net seen disk l
              = ((seen ++ [l], fun m => if m = l then some c else disk m),
                 [Ev.dlCall l, Ev.netReq l, Ev.addSeen l, Ev.convCall l]) := by
            simp [processLink, download_file, hseen, hdisk, hnet]
          simp only [processTick, hpl]
          intro hmem
          rcases List.mem_append.mp hmem with h1 | h1
          · simp only [List.mem_cons, List.not_mem_nil, or_false] at h1
            rcases h1 with h1 | h1 | h1 | h1 <;> simp_all
          · exact ih _ _ (List.mem_append_left _ hn) h1
        · have hpl : processLink net seen disk l = ((seen, disk),
              [Ev.dlCall l, Ev.netReq l]) := by
            simp [processLink, download_file, hseen, hdisk, hnet]
          simp only [processTick, hpl]
          intro hmem
          rcases List.mem_append.mp hmem with h1 | h1
          · simp only [List.mem_cons, List.not_mem_nil, or_false] at h1
            rcases h1 with h1 | h1 <;> simp_all
          · exact ih _ _ hn h1
        · have hpl : processLink net seen disk l
              = ((seen, fun m => if m = l then some c else disk m),
                 [Ev.dlCall l, Ev.netReq l]) := by
            simp [processLink, download_file, hseen, hdisk, hnet]
          simp only [processTick, hpl]
          intro hmem
          rcases List.mem_append.mp hmem with h1 | h1
          · simp only [List.mem_cons, List.not_mem_nil, or_false] at h1
            rcases h1 with h1 | h1 <;> simp_all
          · exact ih _ _ hn h1
      · have hpl : processLink net seen disk l = ((seen, disk), [Ev.dlCall l]) := by
          rw [processLink, if_neg hseen,
            download_file_skips_existing net disk l c hdisk]
          rfl
        simp only [processTick, hpl]
        intro hmem
        rcases List.mem_append.mp hmem with h1 | h1
        · simp only [List.mem_cons, List.not_mem_nil, or_false] at h1
          simp_all
        · exact ih _ _ hn h1

theorem processTick_addSeen_before_conv (net : String → DlOutcome)
    (links : List String) (n : String) :
    ∀ seen disk, Ev.convCall n ∈ (processTick net links seen disk).2 →
      List.Sublist [Ev.addSeen n, Ev.convCall n]
        (processTick net links seen disk).2 := by
  induction links with
  | nil =>
    intro seen disk h
    simp [processTick] at h
  | cons l ls ih =>
    intro seen disk h
    by_cases hseen : l ∈ seen
    · have hpl : processLink net seen disk l = ((seen, disk), []) := by
        simp [processLink, hseen]
      simp only [processTick, hpl, List.nil_append] at h ⊢
      exact ih _ _ h
    · rcases hdisk : disk l with _ | c
      · rcases hnet : net l with c | _ | c
        · have hpl : processLink net seen disk l
              = ((seen ++ [l], fun m => if m = l then some c else disk m),
                 [Ev.dlCall l, Ev.netReq l, Ev.addSeen l, Ev.convCall l]) := by
            simp [processLink, download_file, hseen, hdisk, hnet]
          simp only [processTick, hpl] at h ⊢
          rcases List.mem_append.mp h with h1 | h1
          · have hnl : n = l := by
              simp only [List.mem_cons, List.not_mem_nil, or_false] at h1
              rcases h1 with h1 | h1 | h1 | h1 <;> simp_all
            subst hnl
            refine List.Sublist.trans ?_ (List.sublist_append_left _ _)
            exact ((List.Sublist.refl _).cons _).cons _
          · exact (ih _ _ h1).trans (List.sublist_append_right _ _)
        · have hpl : processLink net seen disk l = ((seen, disk),
              [Ev.dlCall l, Ev.netReq l]) := by
            simp [processLink, download_file, hseen, hdisk, hnet]
          simp only [processTick, hpl] at h ⊢
          rcases List.mem_append.mp h with h1 | h1
          · simp only [List.mem_cons, List.not_mem_nil, or_false] at h1
            rcases h1 with h1 | h1 <;> simp_all
          · exact (ih _ _ h1).trans (List.sublist_append_right _ _)
        · have hpl : processLink net seen disk l
              = ((seen, fun m => if m = l then some c else disk m),
                 [Ev.dlCall l, Ev.netReq l]) := by
            simp [processLink, download_file, hseen, hdisk, hnet]
          simp only [processTick, hpl] at h ⊢
          rcases List.mem_append.mp h with h1 | h1
          · simp only [List.mem_cons, List.not_mem_nil, or_false] at h1
            rcases h1 with h1 | h1 <;> simp_all
          · exact (ih _ _ h1).trans (List.sublist_append_right _ _)
      · have hpl : processLink net seen disk l = ((seen, disk), [Ev.dlCall l]) := by
          rw [processLink, if_neg hseen,
            download_file_skips_existing net disk l c hdisk]
          rfl
        simp only [processTick, hpl] at h ⊢
        rcases List.mem_append.mp h with h1 | h1
        · simp only [List.mem_cons, List.not_mem_nil, or_false] at h1
          simp_all
        · exact (ih _ _ h1).trans (List.sublist_append_right _ _)

theorem processTick_disk_preserved (net : String → DlOutcome)
    (links : List String) (n : String) (c : ℕ) :
    ∀ seen disk, disk n = some c →
      (processTick net links seen disk).1.2 n = some c := by
  induction links with
  | nil =>
    intro seen disk h
    simpa [processTick] using h
  | cons l ls ih =>
    intro seen disk h
    by_cases hseen : l ∈ seen
    · have hpl : processLink net seen disk l = ((seen, disk), []) := by
        simp [processLink, hseen]
      simp only [processTick, hpl]
      exact ih _ _ h
    · rcases hdisk : disk l with _ | c2
      · have hne : n ≠ l := by
          intro e
          rw [e, hdisk] at h
          cases h
        rcases hnet : net l with c2 | _ | c2
        · have hpl : processLink net seen disk l
              = ((seen ++ [l], fun m => if m = l then some c2 else disk m),
                 [Ev.dlCall l, Ev.netReq l, Ev.addSeen l, Ev.convCall l]) := by
            simp [processLink, download_file, hseen, hdisk, hnet]
          simp only [processTick, hpl]
          exact ih _ _ (by simp [hne, h])
        · have hpl : processLink net seen disk l = ((seen, disk),
              [Ev.dlCall l, Ev.netReq l]) := by
            simp [processLink, download_file, hseen, hdisk, hnet]
          simp only [processTick, hpl]
          exact ih _ _ h
        · have hpl : processLink net seen disk l
              = ((seen, fun m => if m = l then some c2 else disk m),
                 [Ev.dlCall l, Ev.netReq l]) := by
            simp [processLink, download_file, hseen, hdisk, hnet]
          simp only [processTick, hpl]
          exact ih _ _ (by simp [hne, h])
      · have hpl : processLink net seen disk l = ((seen, disk), [Ev.dlCall l]) := by
          rw [processLink, if_neg hseen,
            download_file_skips_existing net disk l c2 hdisk]
          rfl
        simp only [processTick, hpl]
        exact ih _ _ h

theorem processTick_no_conv_of_disk_some (net : String → DlOutcome)
    (links : List String) (n : String) (c : ℕ) :
    ∀ seen disk, disk n = some c →
      Ev.convCall n ∉ (processTick net links seen disk).2 := by
  induction links with
  | nil =>
    intro seen disk h
    simp [processTick]
  | cons l ls ih =>
    intro seen disk h
    by_cases hseen : l ∈ seen
    · have hpl : processLink net seen disk l = ((seen, disk), []) := by
        simp [processLink, hseen]
      simp only [processTick, hpl, List.nil_append]
      exact ih _ _ h
    · rcases hdisk : disk l with _ | c2
      · have hne : n ≠ l := by
          intro e
          rw [e, hdisk] at h
          cases h
        rcases hnet : net l with c2 | _ | c2
        · have hpl : processLink net seen disk l
              = ((seen ++ [l], fun m => if m = l then some c2 else disk m),
                 [Ev.dlCall l, Ev.netReq l, Ev.addSeen l, Ev.convCall l]) := by
            simp [processLink, download_file, hseen, hdisk, hnet]
          simp only [processTick, hpl]
          intro hmem
          rcases List.mem_append.mp hmem with h1 | h1
          · simp only [List.mem_cons, List.not_mem_nil, or_false] at h1
            rcases h1 with h1 | h1 | h1 | h1 <;> simp_all
          · exact ih _ _ (by simp [hne, h]) h1
        · have hpl : processLink net seen disk l = ((seen, disk),
              [Ev.dlCall l, Ev.netReq l]) := by
            simp [processLink, download_file, hseen, hdisk, hnet]
          simp only [processTick, hpl]
          intro hmem
          rcases List.mem_append.mp hmem with h1 | h1
          · simp only [List.mem_cons, List.not_mem_nil, or_false] at h1
            rcases h1 with h1 | h1 <;> simp_all
          · exact ih _ _ h h1
        · have hpl : processLink net seen disk l
              = ((seen, fun m => if m = l then some c2 else disk m),
                 [Ev.dlCall l, Ev.netReq l]) := by
            simp [processLink, download_file, hseen, hdisk, hnet]
          simp only [processTick, hpl]
          intro hmem
          rcases List.mem_append.mp hmem with h1 | h1
          · simp only [List.mem_cons, List.not_mem_nil, or_false] at h1
            rcases h1 with h1 | h1 <;> simp_all
          · exact ih _ _ (by simp [hne, h]) h1
      · have hpl : processLink net seen disk l = ((seen, disk), [Ev.dlCall l]) := by
          rw [processLink, if_neg hseen,
            download_file_skips_existing net disk l c2 hdisk]
          rfl
        simp only [processTick, hpl]
        intro hmem
        rcases List.mem_append.mp hmem with h1 | h1
        · simp only [List.mem_cons, List.not_mem_nil, or_false] at h1
          simp_all
        · exact ih _ _ h h1

end Chmi

namespace Chmi

/-- C4: for one product and one tick of the acquisition loop, (i) the seen
set is seeded at process start from the download directory contents; (ii) a
name is in the tick's final seen set exactly when it was already seen or it
was discovered, unseen, absent from disk and its download succeeded - so the
set gains a name exactly on a confirmed successful download, is not updated
on a failed download (leaving the name to be retried next tick), never
shrinks, and is independent of conversion outcomes; (iii) a name already in
the set is never passed to download_file again; (iv) whenever conversion of a
name is attempted, the name was added to the seen set at an earlier point of
the tick's event trace. -/
theorem c4_seen_set_invariants (net : String → DlOutcome) (links seen : List String)
    (disk : String → Option ℕ) :
    (∀ fs, initial_seen fs = fs) ∧
    (∀ n, n ∈ (processTick net links seen disk).1.1 ↔
        n ∈ seen ∨ (n ∈ links ∧ n ∉ seen ∧ disk n = none ∧
          ∃ c, net n = DlOutcome.ok c)) ∧
    (∀ n, n ∈ seen → Ev.dlCall n ∉ (processTick net links seen disk).2) ∧
    (∀ n, Ev.convCall n ∈ (processTick net links seen disk).2 →
        List.Sublist [Ev.addSeen n, Ev.convCall n]
          (processTick net links seen disk).2) :=
  ⟨fun _ => rfl,
   fun n => processTick_seen_mem net links seen disk n,
   fun n hn => processTick_no_dlCall_of_seen net links n seen disk hn,
   fun n h => processTick_addSeen_before_conv net links n seen disk h⟩

/-- Witness for C4 at a concrete tick: one fresh link whose download succeeds
enters the seen set, and the trace adds it to the seen set before attempting
its conversion. -/
theorem c4_seen_set_invariants_witness :
    ("a.hdf" ∈
      (processTick (fun _ => DlOutcome.ok 0) ["a.hdf"] [] (fun _ => none)).1.1) ∧
    List.Sublist [Ev.addSeen "a.hdf", Ev.convCall "a.hdf"]
      (processTick (fun _ => DlOutcome.ok 0) ["a.hdf"] [] (fun _ => none)).2 := by
  have h := c4_seen_set_invariants (fun _ => DlOutcome.ok 0) ["a.hdf"] []
    (fun _ => none)
  refine ⟨(h.2.1 "a.hdf").mpr ?_, h.2.2.2 "a.hdf" ?_⟩
  · exact Or.inr ⟨by simp, by simp, rfl, ⟨0, rfl⟩⟩
  · simp [processTick, processLink, download_file]

/-- C10: when a file of the same base name already exists in the local
download folder, download_file returns False immediately: no network request
is issued and the disk is returned unchanged; consequently in that tick the
loop never adds the name to the seen set (it was filtered as a failed
download), never attempts its conversion, and the existing file's content is
still on disk unchanged at the end of the tick. -/
theorem c10_download_skip_existing (net : String → DlOutcome)
    (links seen : List String) (disk : String → Option ℕ) (n : String) (c : ℕ)
    (h : disk n = some c) :
    download_file net disk n = (false, disk, [Ev.dlCall n]) ∧
    Ev.netReq n ∉ (download_file net disk n).2.2 ∧
    (processTick net links seen disk).1.2 n = some c ∧
    (n ∉ seen → n ∉ (processTick net links seen disk).1.1) ∧
    Ev.convCall n ∉ (processTick net links seen disk).2 := by
  have hdl := download_file_skips_existing net disk n c h
  refine ⟨hdl, ?_, processTick_disk_preserved net links n c seen disk h, ?_,
    processTick_no_conv_of_disk_some net links n c seen disk h⟩
  · rw [hdl]
    simp
  · intro hns hmem
    rcases (processTick_seen_mem net links seen disk n).mp hmem with h1 | ⟨_, _, hnone, _⟩
    · exact hns h1
    · rw [h] at hnone
      cases hnone

/-- Witness for C10: with a.hdf already on disk with content 7, the call
returns False with no network request, and after the tick the file is
untouched and the name was neither added to the seen set nor converted. -/
theorem c10_download_skip_existing_witness :
    download_file (fun _ => DlOutcome.ok 0)
        (fun m => if m = "a.hdf" then some 7 else none) "a.hdf"
      = (false, fun m => if m = "a.hdf" then some 7 else none,
         [Ev.dlCall "a.hdf"]) ∧
    ("a.hdf" ∉
      (processTick (fun _ => DlOutcome.ok 0) ["a.hdf"] []
        (fun m => if m = "a.hdf" then some 7 else none)).1.1) := by
  have h := c10_download_skip_existing (fun _ => DlOutcome.ok 0) ["a.hdf"] []
    (fun m => if m = "a.hdf" then some 7 else none) "a.hdf" 7 (by simp)
  exact ⟨h.1, h.2.2.2.1 (by simp)⟩

end Chmi

namespace Chmi

theorem chain_head_le_getLast (l : List ℚ) (hc : l.Chain' (· < ·)) (hne : l ≠ []) :
    l.getD 0 0 ≤ l.getD (l.length - 1) 0 := by
  induction l with
  | nil => exact absurd rfl hne
  | cons a t ih =>
    cases t with
    | nil => simp
    | cons b t2 =>
      have hab : a < b := (List.chain'_cons.mp hc).1
      have hct : (b :: t2).Chain' (· < ·) := (List.chain'_cons.mp hc).2
      have hih := ih hct (by simp)
      have hlen : (a :: b :: t2).length - 1 = t2.length + 1 := by simp
      rw [hlen, List.getD_cons_succ, List.getD_cons_zero]
      have hlen2 : (b :: t2).length - 1 = t2.length := by simp
      rw [hlen2, List.getD_cons_zero] at hih
      exact le_trans hab.le hih

/-- C6: in the level-bin (Merge1h) classifier, over any level table as the
spec fixes it (nonempty, strictly increasing) and any palette size of at
least one color: a pixel whose physical value (raw times gain plus offset,
defaulting to gain 1 and offset 0 when the attributes are absent) is below
the first boundary gets class -1; a raw code equal to a present nodata or
undetect value is forced to -1 regardless of the physical value; a
non-masked pixel whose physical value reaches the last boundary saturates
into the final bin ncolors - 1 (never -1 and never beyond the palette); and
absent nodata and undetect attributes mean no raw code is masked, the class
being decided by the physical-value test alone rather than an error. -/
theorem c6_level_bin (levels : List ℚ) (ncolors : ℕ) (a : MergeAttrs) (raw : ℕ)
    (hlv : IsLevelTable levels) (hnc : 1 ≤ ncolors) :
    (physOf a raw < levels.getD 0 0 → mergeClassPix levels ncolors a raw = -1) ∧
    (a.nodata = some ((raw : ℚ)) ∨ a.undetect = some ((raw : ℚ)) →
      mergeClassPix levels ncolors a raw = -1) ∧
    (((raw : ℚ)) ∉ a.nodata.toList ++ a.undetect.toList →
      levels.getD (levels.length - 1) 0 ≤ physOf a raw →
      mergeClassPix levels ncolors a raw = (ncolors : ℤ) - 1 ∧
        0 ≤ (ncolors : ℤ) - 1) ∧
    (a.gain = none → a.offset = none → physOf a raw = (raw : ℚ)) ∧
    (a.nodata = none → a.undetect = none →
      mergeClassPix levels ncolors a raw
        = if physOf a raw < levels.getD 0 0 then -1
          else boundaryNormClip levels ncolors (physOf a raw)) := by
  obtain ⟨hne, hchain⟩ := hlv
  have hhl : levels.getD 0 0 ≤ levels.getD (levels.length - 1) 0 :=
    chain_head_le_getLast levels hchain hne
  refine ⟨?_, ?_, ?_, ?_, ?_⟩
  · intro h
    have hc : ((a.nodata.toList ++ a.undetect.toList).contains ((raw : ℚ))
        || decide (physOf a raw < levels.getD 0 0)) = true := by
      rw [Bool.or_eq_true]
      exact Or.inr (decide_eq_true h)
    simp only [mergeClassPix, hc]
    rfl
  · intro h
    have hmem : ((raw : ℚ)) ∈ a.nodata.toList ++ a.undetect.toList := by
      rcases h with h | h <;> simp [h]
    have hc : ((a.nodata.toList ++ a.undetect.toList).contains ((raw : ℚ))
        || decide (physOf a raw < levels.getD 0 0)) = true := by
      rw [Bool.or_eq_true]
      exact Or.inl (List.elem_iff.mpr hmem)
    simp only [mergeClassPix, hc]
    rfl
  · intro hmask hsat
    have hnotlt : ¬ physOf a raw < levels.getD 0 0 := not_lt.mpr (hhl.trans hsat)
    have hbn : boundaryNormClip levels ncolors (physOf a raw)
        = (ncolors : ℤ) - 1 := by
      simp only [boundaryNormClip]
      rw [min_eq_right hsat, max_eq_right hhl, if_pos (le_refl _)]
    constructor
    · simp only [mergeClassPix]
      rw [if_neg, hbn]
      simp only [Bool.or_eq_true, decide_eq_true_eq, not_or]
      constructor
      · intro hc
        exact hmask (List.elem_iff.mp hc)
      · exact hnotlt
    · omega
  · intro h1 h2
    simp [physOf, h1, h2]
  · intro h1 h2
    simp only [mergeClassPix, h1, h2, Option.toList_none, List.nil_append,
      List.contains_nil, Bool.false_or, decide_eq_true_eq]

end Chmi

namespace Chmi

/-- Witness for C6 on the concrete level table [1, 2] with a 15-color
palette: a frame with absent gain and offset, nodata 255 and undetect 0, at
raw code 3 (physical value 3, at or above the last boundary) saturates into
the final bin 14. -/
theorem c6_level_bin_witness :
    mergeClassPix [1, 2] 15 ⟨none, none, some 255, some 0⟩ 3 = 14 := by
  have hlv : IsLevelTable [1, 2] := by
    constructor
    · simp
    · simp only [List.chain'_cons, List.chain'_singleton, and_true]
      norm_num
  have hmask : ((3:ℕ) : ℚ) ∉
      (some (255:ℚ)).toList ++ (some (0:ℚ)).toList := by
    intro hm
    simp only [Option.toList_some, List.cons_append, List.nil_append,
      List.mem_cons, List.not_mem_nil, or_false] at hm
    rcases hm with hm | hm <;> norm_num at hm
  have hsat : ([1, 2] : List ℚ).getD (([1, 2] : List ℚ).length - 1) 0
      ≤ physOf ⟨none, none, some 255, some 0⟩ 3 := by
    norm_num [physOf]
  have h := (c6_level_bin [1, 2] 15 ⟨none, none, some 255, some 0⟩ 3 hlv
    (by norm_num)).2.2.1 hmask hsat
  have h2 := h.1
  norm_num at h2
  exact h2

end Chmi

namespace Chmi

theorem quant8_zero : quant8 0 = 0 := by
  unfold quant8
  have hfl : Int.floor ((0:ℚ) * 255 + 1/2) = 0 := by
    rw [Int.floor_eq_iff]
    norm_num
  rw [hfl]
  rfl

theorem quant8_one : quant8 1 = 255 := by
  unfold quant8
  have hfl : Int.floor ((1:ℚ) * 255 + 1/2) = 255 := by
    rw [Int.floor_eq_iff]
    norm_num
  rw [hfl]
  rfl

theorem quant8_toRgbUnit (n : ℕ) : quant8 (toRgbUnit n) = n := by
  unfold quant8 toRgbUnit
  have hmul : (n:ℚ) / 255 * 255 + 1/2 = (n:ℚ) + 1/2 := by
    rw [div_mul_cancel₀]
    norm_num
  rw [hmul]
  have hfl : Int.floor ((n:ℚ) + 1/2) = (n:ℤ) := by
    rw [Int.floor_eq_iff]
    push_cast
    constructor <;> linarith
  rw [hfl]
  simp

/-- C8: the two rendering strategies of the image emitter agree pixel by
pixel on every class a classified grid can hold (-1 up to palette length
minus one): the direct RGBA pixel-buffer write and the rasterized-plot
overlay buffer (after its 8-bit quantization) both give (Palette[c], alpha
255) to every pixel of class c at least 0 and the fully transparent
(0, 0, 0, 0) to every pixel of class -1. -/
theorem c8_emitter_equivalence (pal : List RGB) (hpal : IsPalette pal) (c : ℤ)
    (hc : c < (pal.length : ℤ)) :
    emitPixelOverlay pal c = emitPixelBuffer pal c ∧
    (0 ≤ c → emitPixelBuffer pal c
      = ((pal.getD c.toNat ⟨0, 0, 0⟩).r, (pal.getD c.toNat ⟨0, 0, 0⟩).g,
         (pal.getD c.toNat ⟨0, 0, 0⟩).b, 255)) ∧
    (c < 0 → emitPixelBuffer pal c = (0, 0, 0, 0)) := by
  rcases lt_or_le c 0 with hneg | hpos
  · have hb : emitPixelBuffer pal c = (0, 0, 0, 0) := by
      simp [emitPixelBuffer, not_le.mpr hneg]
    have ho : emitPixelOverlay pal c = (quant8 0, quant8 0, quant8 0, quant8 0) := by
      simp [emitPixelOverlay, not_le.mpr hneg]
    refine ⟨?_, fun h0 => absurd h0 (not_le.mpr hneg), fun _ => hb⟩
    rw [hb, ho, quant8_zero]
  · have hlt : c.toNat < pal.length := by omega
    have hb : emitPixelBuffer pal c
        = ((pal.getD c.toNat ⟨0, 0, 0⟩).r, (pal.getD c.toNat ⟨0, 0, 0⟩).g,
           (pal.getD c.toNat ⟨0, 0, 0⟩).b, 255) := by
      simp [emitPixelBuffer, hpos]
    have ho : emitPixelOverlay pal c
        = (quant8 (toRgbUnit (pal.getD c.toNat ⟨0, 0, 0⟩).r),
           quant8 (toRgbUnit (pal.getD c.toNat ⟨0, 0, 0⟩).g),
           quant8 (toRgbUnit (pal.getD c.toNat ⟨0, 0, 0⟩).b), quant8 1) := by
      simp [emitPixelOverlay, hpos, hlt]
    refine ⟨?_, fun _ => hb, fun hneg => absurd hpos (not_le.mpr hneg)⟩
    rw [hb, ho, quant8_one, quant8_toRgbUnit, quant8_toRgbUnit, quant8_toRgbUnit]

/-- Witness for C8 on a one-color palette: at class 0 both paths emit that
color fully opaque, and at class -1 both emit full transparency. -/
theorem c8_emitter_equivalence_witness :
    (emitPixelOverlay [⟨10, 20, 30⟩] 0 = emitPixelBuffer [⟨10, 20, 30⟩] 0 ∧
      emitPixelBuffer [⟨10, 20, 30⟩] 0 = (10, 20, 30, 255)) ∧
    (emitPixelOverlay [⟨10, 20, 30⟩] (-1) = emitPixelBuffer [⟨10, 20, 30⟩] (-1) ∧
      emitPixelBuffer [⟨10, 20, 30⟩] (-1) = (0, 0, 0, 0)) := by
  have hpal : IsPalette [⟨10, 20, 30⟩] := by
    intro x hx
    simp only [List.mem_singleton] at hx
    subst hx
    norm_num
  have h0 := c8_emitter_equivalence [⟨10, 20, 30⟩] hpal 0 (by norm_num)
  have h1 := c8_emitter_equivalence [⟨10, 20, 30⟩] hpal (-1) (by norm_num)
  exact ⟨⟨h0.1, by simpa using h0.2.1 le_rfl⟩, ⟨h1.1, h1.2.2 (by norm_num)⟩⟩

end Chmi

namespace Chmi

/-- C7: the list endpoint rejects an unknown product with client error 404;
for a known product it returns a result list that is sorted ascending by
timestamp and contains exactly one entry per artifact of the directory that
ends in .png, parses, and has its embedded timestamp inside the inclusive
[start, end] range - each entry carrying that timestamp, the /datatype/file
url, and the rain score exactly as encoded in (or absent from) the
filename. -/
theorem c7_list_endpoint (dirs : List Char → Option (List (List Char)))
    (dt : List Char) (s e : TS) (files : List (List Char)) :
    (dirs dt = none → list_files dirs dt (some (s, e)) = Except.error 404) ∧
    (dirs dt = some files → ∃ l, list_files dirs dt (some (s, e)) = Except.ok l) ∧
    (dirs dt = some files →
      ∀ l, list_files dirs dt (some (s, e)) = Except.ok l →
        l.Sorted (fun x y => tsKey x.ts ≤ tsKey y.ts) ∧
        (∀ en : Entry, en ∈ l ↔ ∃ f, f ∈ files ∧ isPng f = true ∧
          extract_timestamp_and_score f = some (en.ts, en.rain) ∧
          tsKey s ≤ tsKey en.ts ∧ tsKey en.ts ≤ tsKey e ∧ en.url = urlOf dt f)) := by
  haveI hTot : IsTotal Entry (fun x y => tsKey x.ts ≤ tsKey y.ts) :=
    ⟨fun a b => le_total _ _⟩
  haveI hTr : IsTrans Entry (fun x y => tsKey x.ts ≤ tsKey y.ts) :=
    ⟨fun a b c hab hbc => le_trans hab hbc⟩
  refine ⟨?_, ?_, ?_⟩
  · intro h
    simp [list_files, h]
  · intro h
    exact ⟨((files.filter isPng).filterMap (entryOf dt s e)).insertionSort
      (fun x y => tsKey x.ts ≤ tsKey y.ts), by simp [list_files, h]⟩
  · intro h l hl
    simp only [list_files, h] at hl
    have hleq : l = ((files.filter isPng).filterMap
        (entryOf dt s e)).insertionSort (fun x y => tsKey x.ts ≤ tsKey y.ts) := by
      exact (Except.ok.inj hl).symm
    subst hleq
    constructor
    · exact List.sorted_insertionSort _ _
    · intro en
      rw [(List.perm_insertionSort _ _).mem_iff, List.mem_filterMap]
      constructor
      · rintro ⟨f, hf, hof⟩
        rw [List.mem_filter] at hf
        rcases hx : extract_timestamp_and_score f with _ | ⟨ts, sc⟩
        · simp only [entryOf, hx] at hof
          cases hof
        · simp only [entryOf, hx] at hof
          by_cases hr : tsKey s ≤ tsKey ts ∧ tsKey ts ≤ tsKey e
          · rw [if_pos hr] at hof
            have hen := Option.some.inj hof
            subst hen
            exact ⟨f, hf.1, hf.2, hx, hr.1, hr.2, rfl⟩
          · rw [if_neg hr] at hof
            cases hof
      · rintro ⟨f, hfmem, hpng, hex, h1, h2, hurl⟩
        refine ⟨f, List.mem_filter.mpr ⟨hfmem, hpng⟩, ?_⟩
        simp only [entryOf, hex]
        rw [if_pos ⟨h1, h2⟩, ← hurl]

/-- Witness for C7: with one product directory holding the single artifact
a_20240101000000_0.500.png, an unknown product yields 404 and the exact
point query start = end = 2024-01-01 00:00:00 returns exactly that
artifact's entry. -/
theorem c7_list_endpoint_witness :
    list_files
        (fun d => if d = "maxz".toList
          then some ["a_20240101000000_0.500.png".toList] else none)
        ("x".toList)
        (some (⟨2024, 1, 1, 0, 0, 0⟩, ⟨2024, 1, 1, 0, 0, 0⟩))
      = Except.error 404 ∧
    list_files
        (fun d => if d = "maxz".toList
          then some ["a_20240101000000_0.500.png".toList] else none)
        ("maxz".toList)
        (some (⟨2024, 1, 1, 0, 0, 0⟩, ⟨2024, 1, 1, 0, 0, 0⟩))
      = Except.ok
          [⟨⟨2024, 1, 1, 0, 0, 0⟩,
            urlOf ("maxz".toList) ("a_20240101000000_0.500.png".toList),
            some (((0 : ℕ) : ℚ) + ((500 : ℕ) : ℚ) / (10 : ℚ) ^ (3 : ℕ))⟩] ∧
    (⟨⟨2024, 1, 1, 0, 0, 0⟩,
        urlOf ("maxz".toList) ("a_20240101000000_0.500.png".toList),
        some (((0 : ℕ) : ℚ) + ((500 : ℕ) : ℚ) / (10 : ℚ) ^ (3 : ℕ))⟩ : Entry) ∈
      [(⟨⟨2024, 1, 1, 0, 0, 0⟩,
        urlOf ("maxz".toList) ("a_20240101000000_0.500.png".toList),
        some (((0 : ℕ) : ℚ) + ((500 : ℕ) : ℚ) / (10 : ℚ) ^ (3 : ℕ))⟩ : Entry)] := by
  have h := c7_list_endpoint
    (fun d => if d = "maxz".toList
      then some ["a_20240101000000_0.500.png".toList] else none)
    ("x".toList) ⟨2024, 1, 1, 0, 0, 0⟩ ⟨2024, 1, 1, 0, 0, 0⟩
    ["a_20240101000000_0.500.png".toList]
  have h2 := c7_list_endpoint
    (fun d => if d = "maxz".toList
      then some ["a_20240101000000_0.500.png".toList] else none)
    ("maxz".toList) ⟨2024, 1, 1, 0, 0, 0⟩ ⟨2024, 1, 1, 0, 0, 0⟩
    ["a_20240101000000_0.500.png".toList]
  refine ⟨h.1 rfl, rfl, ?_⟩
  have hok := h2.2.2 rfl _ (rfl :
    list_files
      (fun d => if d = "maxz".toList
        then some ["a_20240101000000_0.500.png".toList] else none)
      ("maxz".toList)
      (some (⟨2024, 1, 1, 0, 0, 0⟩, ⟨2024, 1, 1, 0, 0, 0⟩))
    = Except.ok
        [⟨⟨2024, 1, 1, 0, 0, 0⟩,
          urlOf ("maxz".toList) ("a_20240101000000_0.500.png".toList),
          some (((0 : ℕ) : ℚ) + ((500 : ℕ) : ℚ) / (10 : ℚ) ^ (3 : ℕ))⟩])
  exact (hok.2 _).mpr
    ⟨"a_20240101000000_0.500.png".toList, by simp, rfl, rfl, le_refl _, le_refl _, rfl⟩

end Chmi

namespace Chmi

theorem retryRun_attempts_le (statuses : ℕ → ℕ) :
    ∀ fuel attempt, (retryRun statuses fuel attempt).2 ≤ attempt + fuel + 1 := by
  intro fuel
  induction fuel with
  | zero =>
    intro attempt
    unfold retryRun
    split_ifs <;> simp
  | succ f ih =>
    intro attempt
    unfold retryRun
    split_ifs with h
    · exact le_trans (ih (attempt + 1)) (by omega)
    · simp

theorem retryRun_success_first (statuses : ℕ → ℕ) (fuel attempt : ℕ)
    (h : statuses attempt ∉ status_forcelist) :
    retryRun statuses fuel attempt = (some (statuses attempt), attempt + 1) := by
  cases fuel <;> simp [retryRun, h]

/-- C9: the listing client is mounted with Retry(total 5, backoff factor 1,
status forcelist 500/502/503/504); a call makes at most 1 + 5 attempts, does
not retry at all when the first response status is outside the forcelist,
sleeps an exponentially doubling backoff before each retry, and whenever the
call ultimately fails - retries exhausted, or a final error status making
raise_for_status raise - get_file_links logs the error, notifies the
alerting sink and returns the empty link list, so the tick continues as if
no files were found. -/
theorem c9_retry_and_failure (statuses : ℕ → ℕ) (folderUrl : List Char)
    (lines : List (List Char)) :
    retry_total = 5 ∧
    status_forcelist = [500, 502, 503, 504] ∧
    (retryRun statuses retry_total 0).2 ≤ 1 + retry_total ∧
    (statuses 0 ∉ status_forcelist →
      retryRun statuses retry_total 0 = (some (statuses 0), 1)) ∧
    (backoffSleep 0 = backoff_factor ∧
      ∀ k, backoffSleep (k + 1) = 2 * backoffSleep k) ∧
    ((retryRun statuses retry_total 0).1 = none →
      get_file_links statuses folderUrl lines
        = ([], [FetchEv.logged, FetchEv.notified])) ∧
    (∀ st, (retryRun statuses retry_total 0).1 = some st → 400 ≤ st →
      get_file_links statuses folderUrl lines
        = ([], [FetchEv.logged, FetchEv.notified])) := by
  refine ⟨rfl, rfl, ?_, ?_, ⟨?_, ?_⟩, ?_, ?_⟩
  · have h := retryRun_attempts_le statuses retry_total 0
    omega
  · intro h
    exact retryRun_success_first statuses retry_total 0 h
  · unfold backoffSleep
    norm_num
  · intro k
    unfold backoffSleep
    ring
  · intro h
    simp only [get_file_links, h]
  · intro st h h4
    simp only [get_file_links, h]
    rw [if_pos h4]

/-- Witness for C9: a listing endpoint that always answers 503 exhausts the
five retries, and get_file_links reports the failure and returns no links. -/
theorem c9_retry_and_failure_witness :
    get_file_links (fun _ => 503) [] [['a']]
      = ([], [FetchEv.logged, FetchEv.notified]) ∧
    (retryRun (fun _ => 503) retry_total 0).2 ≤ 1 + retry_total := by
  have h := c9_retry_and_failure (fun _ => 503) [] [['a']]
  exact ⟨h.2.2.2.2.2.1 (by decide), h.2.2.1⟩

end Chmi
